import Mathlib

/-!
Verification of the cube-shell / cube-diff terrain streaming core of the
playform repository: a shallow embedding of `common/cube_shell.rs`,
`server/src/server_update.rs` and `src/terrain_vram_buffers.rs`,
with proofs of the spec's claims about them.
-/

/-- A voxel-grid cell: an integer 3-tuple, as `cgmath::Point3<i32>`.
(Also used for `Vector3<i32>` offsets.) -/
structure Point3 where
  x : Int
  y : Int
  z : Int
deriving DecidableEq, Repr

/-- `num::iter::range_inclusive(a, b)`: the integers from `a` to `b`
inclusive, in increasing order; empty when `a > b`. -/
def range_inclusive (a b : Int) : List Int :=
  (List.range (b + 1 - a).toNat).map fun i : Nat => a + (i : Int)

/-- `range_abs::range_abs(n)`: the integers from `-|n|` to `|n|` inclusive. -/
def range_abs (n : Int) : List Int :=
  range_inclusive (-(n.natAbs : Int)) (n.natAbs : Int)

/-- The `add_square!` macro body of `cube_shell`: the triple nested loop
pushing `center + Vector3::new(dx, dy, dz)` for `dx` in `dxs`, `dy` in
`dys`, `dz` in `dzs`, in loop order. -/
def addSquareShell (center : Point3) (dxs dys dzs : List Int) : List Point3 :=
  dxs.flatMap fun dx => dys.flatMap fun dy => dzs.map fun dz =>
    ⟨center.x + dx, center.y + dy, center.z + dz⟩

/-- `cube_shell` from `common/cube_shell.rs`: the surface cells of the cube
of the given radius around `center`, emitted in three face-pair passes. -/
def cube_shell (center : Point3) (radius : Int) : List Point3 :=
  if radius = 0 then [center]
  else
    addSquareShell center [-radius, radius] (range_abs radius) (range_abs radius) ++
    addSquareShell center (range_abs (radius - 1)) [-radius, radius] (range_abs radius) ++
    addSquareShell center (range_abs (radius - 1)) (range_abs (radius - 1)) [-radius, radius]

/-- The `add_square!` macro body of `cube_diff`: the triple nested loop
pushing `Point3::new(x, y, z)` for `x` in `xs`, `y` in `ys`, `z` in `zs`. -/
def addSquareDiff (xs ys zs : List Int) : List Point3 :=
  xs.flatMap fun x => ys.flatMap fun y => zs.map fun z => ⟨x, y, z⟩

/-- `cube_diff` from `common/cube_shell.rs`: the cells in the cube of radius
`radius` centered at `fromP` but not in the one centered at `toP`. -/
def cube_diff (fromP toP : Point3) (radius : Int) : List Point3 :=
  addSquareDiff
    (if fromP.x < toP.x then
      range_inclusive (fromP.x - radius) (min (fromP.x + radius) (toP.x - radius - 1))
    else
      range_inclusive (max (fromP.x - radius) (toP.x + radius + 1)) (fromP.x + radius))
    (range_inclusive (fromP.y - radius) (fromP.y + radius))
    (range_inclusive (fromP.z - radius) (fromP.z + radius)) ++
  addSquareDiff
    (if fromP.x < toP.x then
      range_inclusive (toP.x - radius) (fromP.x + radius)
    else
      range_inclusive (fromP.x - radius) (toP.x + radius))
    (if fromP.y < toP.y then
      range_inclusive (fromP.y - radius) (min (fromP.y + radius) (toP.y - radius - 1))
    else
      range_inclusive (max (fromP.y - radius) (toP.y + radius + 1)) (fromP.y + radius))
    (range_inclusive (fromP.z - radius) (fromP.z + radius)) ++
  addSquareDiff
    (if fromP.x < toP.x then
      range_inclusive (toP.x - radius) (fromP.x + radius)
    else
      range_inclusive (fromP.x - radius) (toP.x + radius))
    (if fromP.y < toP.y then
      range_inclusive (toP.y - radius) (fromP.y + radius)
    else
      range_inclusive (fromP.y - radius) (toP.y + radius))
    (if fromP.z < toP.z then
      range_inclusive (fromP.z - radius) (min (fromP.z + radius) (toP.z - radius - 1))
    else
      range_inclusive (max (fromP.z - radius) (toP.z + radius + 1)) (fromP.z + radius))

/-- Chebyshev distance between two cells: the max of the per-axis absolute
coordinate differences. -/
def chebyshevDist (p q : Point3) : Int :=
  max ((p.x - q.x).natAbs : Int) (max ((p.y - q.y).natAbs : Int) ((p.z - q.z).natAbs : Int))

theorem mem_range_inclusive {a b v : Int} :
    v ∈ range_inclusive a b ↔ a ≤ v ∧ v ≤ b := by
  simp only [range_inclusive, List.mem_map, List.mem_range]
  constructor
  · rintro ⟨i, hi, rfl⟩
    omega
  · rintro ⟨h1, h2⟩
    exact ⟨(v - a).toNat, by omega, by omega⟩

theorem mem_range_abs {n v : Int} :
    v ∈ range_abs n ↔ -(n.natAbs : Int) ≤ v ∧ v ≤ (n.natAbs : Int) := by
  simp [range_abs, mem_range_inclusive]

theorem nodup_range_inclusive (a b : Int) : (range_inclusive a b).Nodup := by
  refine List.Nodup.map ?_ (List.nodup_range _)
  intro m n h
  have h2 : a + (m : Int) = a + (n : Int) := h
  omega

theorem nodup_range_abs (n : Int) : (range_abs n).Nodup :=
  nodup_range_inclusive _ _

theorem length_range_inclusive (a b : Int) :
    (range_inclusive a b).length = (b + 1 - a).toNat := by
  simp [range_inclusive]

theorem mem_inner_square {x y : Int} {zs : List Int} {p : Point3} :
    p ∈ zs.map (fun z => (⟨x, y, z⟩ : Point3)) ↔ p.x = x ∧ p.y = y ∧ p.z ∈ zs := by
  simp only [List.mem_map]
  constructor
  · rintro ⟨z, hz, rfl⟩
    exact ⟨rfl, rfl, hz⟩
  · rintro ⟨hx, hy, hz⟩
    refine ⟨p.z, hz, ?_⟩
    cases p
    simp_all

theorem mem_mid_square {x : Int} {ys zs : List Int} {p : Point3} :
    p ∈ ys.flatMap (fun y => zs.map fun z => (⟨x, y, z⟩ : Point3)) ↔
      p.x = x ∧ p.y ∈ ys ∧ p.z ∈ zs := by
  simp only [List.mem_flatMap, mem_inner_square]
  constructor
  · rintro ⟨y, hy, rfl, rfl, hz⟩
    exact ⟨rfl, hy, hz⟩
  · rintro ⟨hx, hy, hz⟩
    exact ⟨p.y, hy, hx, rfl, hz⟩

theorem mem_addSquareDiff {xs ys zs : List Int} {p : Point3} :
    p ∈ addSquareDiff xs ys zs ↔ p.x ∈ xs ∧ p.y ∈ ys ∧ p.z ∈ zs := by
  constructor
  · intro h
    obtain ⟨x, hx, hmid⟩ := List.mem_flatMap.1 h
    obtain ⟨hpx, hy, hz⟩ := mem_mid_square.1 hmid
    exact ⟨hpx ▸ hx, hy, hz⟩
  · rintro ⟨hx, hy, hz⟩
    exact List.mem_flatMap.2 ⟨p.x, hx, mem_mid_square.2 ⟨rfl, hy, hz⟩⟩

theorem nodup_inner_square {x y : Int} {zs : List Int} (hz : zs.Nodup) :
    (zs.map fun z => (⟨x, y, z⟩ : Point3)).Nodup := by
  refine hz.map ?_
  intro z1 z2 h
  injection h

theorem nodup_mid_square {x : Int} {ys zs : List Int} (hy : ys.Nodup) (hz : zs.Nodup) :
    (ys.flatMap fun y => zs.map fun z => (⟨x, y, z⟩ : Point3)).Nodup := by
  refine List.nodup_flatMap.2 ⟨fun y _ => nodup_inner_square hz, ?_⟩
  refine hy.imp ?_
  intro y1 y2 hne
  simp only [Function.onFun]
  intro p h1 h2
  have e1 := (mem_inner_square.1 h1).2.1
  have e2 := (mem_inner_square.1 h2).2.1
  exact hne (e1 ▸ e2)

theorem nodup_addSquareDiff {xs ys zs : List Int}
    (hx : xs.Nodup) (hy : ys.Nodup) (hz : zs.Nodup) :
    (addSquareDiff xs ys zs).Nodup := by
  refine List.nodup_flatMap.2 ⟨fun x _ => nodup_mid_square hy hz, ?_⟩
  refine hx.imp ?_
  intro x1 x2 hne
  simp only [Function.onFun]
  intro p h1 h2
  have e1 := (mem_mid_square.1 h1).1
  have e2 := (mem_mid_square.1 h2).1
  exact hne (e1 ▸ e2)

theorem length_mid_square (x : Int) (ys zs : List Int) :
    (ys.flatMap fun y => zs.map fun z => (⟨x, y, z⟩ : Point3)).length =
      ys.length * zs.length := by
  induction ys with
  | nil => simp
  | cons y ys ih =>
    simp only [List.flatMap_cons, List.length_append, List.length_map, ih, List.length_cons]
    ring

theorem length_addSquareDiff (xs ys zs : List Int) :
    (addSquareDiff xs ys zs).length = xs.length * ys.length * zs.length := by
  induction xs with
  | nil => simp [addSquareDiff]
  | cons x xs ih =>
    simp only [addSquareDiff, List.flatMap_cons, List.length_append, List.length_cons] at *
    rw [length_mid_square, ih]
    ring

theorem addSquareShell_eq (c : Point3) (dxs dys dzs : List Int) :
    addSquareShell c dxs dys dzs =
      addSquareDiff (dxs.map fun d => c.x + d) (dys.map fun d => c.y + d)
        (dzs.map fun d => c.z + d) := by
  simp only [addSquareShell, addSquareDiff, List.flatMap_map, List.map_map]
  rfl

theorem mem_shift {c v : Int} {l : List Int} :
    v ∈ l.map (fun d => c + d) ↔ v - c ∈ l := by
  simp only [List.mem_map]
  constructor
  · rintro ⟨d, hd, rfl⟩
    simpa using hd
  · intro h
    exact ⟨v - c, h, by ring⟩

theorem nodup_shift {c : Int} {l : List Int} (h : l.Nodup) :
    (l.map fun d => c + d).Nodup := by
  refine h.map ?_
  intro a b hab
  have h2 : c + a = c + b := hab
  omega

theorem mem_addSquareShell {c : Point3} {dxs dys dzs : List Int} {p : Point3} :
    p ∈ addSquareShell c dxs dys dzs ↔
      p.x - c.x ∈ dxs ∧ p.y - c.y ∈ dys ∧ p.z - c.z ∈ dzs := by
  rw [addSquareShell_eq, mem_addSquareDiff, mem_shift, mem_shift, mem_shift]

theorem nodup_addSquareShell {c : Point3} {dxs dys dzs : List Int}
    (h1 : dxs.Nodup) (h2 : dys.Nodup) (h3 : dzs.Nodup) :
    (addSquareShell c dxs dys dzs).Nodup := by
  rw [addSquareShell_eq]
  exact nodup_addSquareDiff (nodup_shift h1) (nodup_shift h2) (nodup_shift h3)

theorem length_addSquareShell (c : Point3) (dxs dys dzs : List Int) :
    (addSquareShell c dxs dys dzs).length = dxs.length * dys.length * dzs.length := by
  rw [addSquareShell_eq, length_addSquareDiff]
  simp

theorem length_range_abs (n : Int) : (range_abs n).length = 2 * n.natAbs + 1 := by
  rw [range_abs, length_range_inclusive]
  omega

theorem mem_pair {a b v : Int} : v ∈ ([a, b] : List Int) ↔ v = a ∨ v = b := by
  simp

theorem nodup_pair {a b : Int} (h : a ≠ b) : ([a, b] : List Int).Nodup := by
  simp [h]

set_option maxHeartbeats 2000000 in
theorem mem_cube_shell {c : Point3} {r : Int} (h : 1 ≤ r) {p : Point3} :
    p ∈ cube_shell c r ↔ chebyshevDist p c = r := by
  have hr : ¬(r = 0) := by omega
  rw [cube_shell, if_neg hr]
  simp only [List.mem_append, mem_addSquareShell, mem_range_abs, mem_pair, chebyshevDist]
  omega

set_option maxHeartbeats 2000000 in
theorem nodup_cube_shell {c : Point3} {r : Int} (h : 1 ≤ r) :
    (cube_shell c r).Nodup := by
  have hr : ¬(r = 0) := by omega
  have hpair : ([-r, r] : List Int).Nodup := nodup_pair (by omega)
  rw [cube_shell, if_neg hr]
  refine List.nodup_append.2 ⟨List.nodup_append.2
    ⟨nodup_addSquareShell hpair (nodup_range_abs _) (nodup_range_abs _),
     nodup_addSquareShell (nodup_range_abs _) hpair (nodup_range_abs _), ?_⟩,
    nodup_addSquareShell (nodup_range_abs _) (nodup_range_abs _) hpair, ?_⟩
  · intro p h1 h2
    rw [mem_addSquareShell] at h1 h2
    simp only [mem_range_abs, mem_pair] at h1 h2
    omega
  · intro p h1 h2
    rcases List.mem_append.1 h1 with h1 | h1 <;>
    · rw [mem_addSquareShell] at h1 h2
      simp only [mem_range_abs, mem_pair] at h1 h2
      omega

theorem length_cube_shell {c : Point3} {r : Int} (h : 1 ≤ r) :
    ((cube_shell c r).length : Int) = (2 * r + 1) ^ 3 - (2 * r - 1) ^ 3 := by
  have hr : ¬(r = 0) := by omega
  rw [cube_shell, if_neg hr]
  simp only [List.length_append, length_addSquareShell, length_range_abs,
    List.length_cons, List.length_nil]
  have ha : ((r.natAbs : Int)) = r := by omega
  have hb : (((r - 1).natAbs : Int)) = r - 1 := by omega
  push_cast
  rw [abs_of_nonneg (by omega : (0:Int) ≤ r), abs_of_nonneg (by omega : (0:Int) ≤ r - 1)]
  ring

theorem mem_ite_range {c : Prop} [Decidable c] {a b a2 b2 v : Int} :
    (v ∈ if c then range_inclusive a b else range_inclusive a2 b2) ↔
      ((c ∧ a ≤ v ∧ v ≤ b) ∨ (¬c ∧ a2 ≤ v ∧ v ≤ b2)) := by
  split
  case isTrue h => simp [mem_range_inclusive, h]
  case isFalse h => simp [mem_range_inclusive, h]

theorem nodup_ite_range {c : Prop} [Decidable c] {a b a2 b2 : Int} :
    (if c then range_inclusive a b else range_inclusive a2 b2).Nodup := by
  split <;> exact nodup_range_inclusive _ _

/-- The axis-aligned cubic region: the cells within Chebyshev distance `r`
of `c`, phrased as per-axis interval bounds. -/
def inCube (c : Point3) (r : Int) (p : Point3) : Prop :=
  c.x - r ≤ p.x ∧ p.x ≤ c.x + r ∧ c.y - r ≤ p.y ∧ p.y ≤ c.y + r ∧
    c.z - r ≤ p.z ∧ p.z ≤ c.z + r

theorem chebyshevDist_le_iff {c : Point3} {r : Int} {p : Point3} :
    chebyshevDist p c ≤ r ↔ inCube c r p := by
  simp only [chebyshevDist, inCube]
  omega

set_option maxHeartbeats 2000000 in
theorem mem_cube_diff_linear {f t : Point3} {r : Int} {p : Point3} :
    p ∈ cube_diff f t r ↔ inCube f r p ∧ ¬inCube t r p := by
  simp only [cube_diff, List.mem_append, mem_addSquareDiff, mem_ite_range,
    mem_range_inclusive, inCube]
  by_cases hx : f.x < t.x <;> by_cases hy : f.y < t.y <;> by_cases hz : f.z < t.z <;>
    simp only [hx, hy, hz, true_and, false_and, not_true, not_false_iff, or_false, false_or,
      not_false_eq_true] <;>
    omega

theorem mem_cube_diff {f t : Point3} {r : Int} {p : Point3} :
    p ∈ cube_diff f t r ↔ chebyshevDist p f ≤ r ∧ ¬chebyshevDist p t ≤ r := by
  rw [mem_cube_diff_linear, chebyshevDist_le_iff, chebyshevDist_le_iff]

set_option maxHeartbeats 2000000 in
theorem nodup_cube_diff (f t : Point3) (r : Int) : (cube_diff f t r).Nodup := by
  rw [cube_diff]
  refine List.nodup_append.2 ⟨List.nodup_append.2
    ⟨nodup_addSquareDiff nodup_ite_range (nodup_range_inclusive _ _) (nodup_range_inclusive _ _),
     nodup_addSquareDiff nodup_ite_range nodup_ite_range (nodup_range_inclusive _ _), ?_⟩,
    nodup_addSquareDiff nodup_ite_range nodup_ite_range nodup_ite_range, ?_⟩
  · intro p h1 h2
    rw [mem_addSquareDiff] at h1 h2
    simp only [mem_ite_range, mem_range_inclusive] at h1 h2
    omega
  · intro p h1 h2
    rcases List.mem_append.1 h1 with h1 | h1 <;>
    · rw [mem_addSquareDiff] at h1 h2
      simp only [mem_ite_range, mem_range_inclusive] at h1 h2
      omega

/-- `p + v` for a cgmath `Point3<i32> + Vector3<i32>`: componentwise addition. -/
def ptAdd (p v : Point3) : Point3 :=
  ⟨p.x + v.x, p.y + v.y, p.z + v.z⟩

theorem addSquareShell_translate (c t : Point3) (dxs dys dzs : List Int) :
    addSquareShell (ptAdd c t) dxs dys dzs =
      (addSquareShell c dxs dys dzs).map fun p => ptAdd p t := by
  simp only [addSquareShell, List.map_flatMap, List.map_map]
  congr 1
  funext dx
  congr 1
  funext dy
  congr 1
  funext dz
  simp only [Function.comp_apply, ptAdd, Point3.mk.injEq]
  omega

/-- C1: for every pair of centers and every radius `r ≥ 0`, `cube_diff`
returns a duplicate-free list that, as a set, is exactly the cells within
Chebyshev distance `r` of `from` but at Chebyshev distance exceeding `r`
from `to`. -/
theorem cube_diff_correct (f t : Point3) (r : Int) (h : 0 ≤ r) :
    (cube_diff f t r).Nodup ∧
      ∀ p : Point3, p ∈ cube_diff f t r ↔
        chebyshevDist p f ≤ r ∧ r < chebyshevDist p t :=
  ⟨nodup_cube_diff f t r, fun p => by rw [mem_cube_diff, not_le]⟩

/-- Witness for C1 at the reference-test input. -/
theorem cube_diff_correct_witness :
    (0:Int) ≤ 1 ∧ (cube_diff ⟨2,0,-3⟩ ⟨1,2,-3⟩ 1).Nodup ∧
      ((⟨3,0,-3⟩:Point3) ∈ cube_diff ⟨2,0,-3⟩ ⟨1,2,-3⟩ 1 ↔
        chebyshevDist ⟨3,0,-3⟩ ⟨2,0,-3⟩ ≤ 1 ∧ 1 < chebyshevDist ⟨3,0,-3⟩ ⟨1,2,-3⟩) :=
  ⟨by decide, (cube_diff_correct ⟨2,0,-3⟩ ⟨1,2,-3⟩ 1 (by decide)).1,
    (cube_diff_correct ⟨2,0,-3⟩ ⟨1,2,-3⟩ 1 (by decide)).2 ⟨3,0,-3⟩⟩

/-- C2: `cube_shell center 0 = [center]`; for `r ≥ 1` the output is
duplicate-free, contains exactly the cells at Chebyshev distance `r` from
the center, and has length `(2r+1)^3 - (2r-1)^3`. -/
theorem cube_shell_correct (c : Point3) (r : Int) (h : 0 ≤ r) :
    (r = 0 → cube_shell c r = [c]) ∧
    (1 ≤ r → (cube_shell c r).Nodup ∧
      (∀ p : Point3, p ∈ cube_shell c r ↔ chebyshevDist p c = r) ∧
      ((cube_shell c r).length : Int) = (2 * r + 1) ^ 3 - (2 * r - 1) ^ 3) := by
  refine ⟨fun h0 => ?_,
    fun h1 => ⟨nodup_cube_shell h1, fun p => mem_cube_shell h1, length_cube_shell h1⟩⟩
  subst h0
  simp [cube_shell]

/-- Witness for C2 at the reference-test center and radius 1. -/
theorem cube_shell_correct_witness :
    (0:Int) ≤ 1 ∧ (cube_shell ⟨2,0,-3⟩ 1).Nodup ∧
      ((⟨3,1,-2⟩:Point3) ∈ cube_shell ⟨2,0,-3⟩ 1 ↔ chebyshevDist ⟨3,1,-2⟩ ⟨2,0,-3⟩ = 1) ∧
      ((cube_shell ⟨2,0,-3⟩ 1).length : Int) = (2 * 1 + 1) ^ 3 - (2 * 1 - 1) ^ 3 :=
  ⟨by decide,
   ((cube_shell_correct ⟨2,0,-3⟩ 1 (by decide)).2 (by decide)).1,
   ((cube_shell_correct ⟨2,0,-3⟩ 1 (by decide)).2 (by decide)).2.1 ⟨3,1,-2⟩,
   ((cube_shell_correct ⟨2,0,-3⟩ 1 (by decide)).2 (by decide)).2.2⟩

/-- C6: for every center and every radius `r ≥ 0`, `cube_diff a a r` is empty. -/
theorem cube_diff_self (a : Point3) (r : Int) (h : 0 ≤ r) : cube_diff a a r = [] := by
  rw [List.eq_nil_iff_forall_not_mem]
  intro p hp
  rw [mem_cube_diff] at hp
  exact hp.2 hp.1

/-- Witness for C6 at the reference-test input. -/
theorem cube_diff_self_witness :
    (0:Int) ≤ 3 ∧ cube_diff ⟨-5,1,-7⟩ ⟨-5,1,-7⟩ 3 = [] :=
  ⟨by decide, cube_diff_self ⟨-5,1,-7⟩ 3 (by decide)⟩

/-- C7: for `from = (2,0,-3)`, `to = from + (-1,2,0)`, radius 1, the set of
cells returned by `cube_diff` equals the fixture offsets of the reference
test `test_simple_diff`, translated by `from`. -/
theorem cube_diff_fixture :
    (cube_diff ⟨2,0,-3⟩ (ptAdd ⟨2,0,-3⟩ ⟨-1,2,0⟩) 1).toFinset =
      (([⟨1,0,0⟩, ⟨1,1,0⟩, ⟨1,-1,0⟩, ⟨1,0,1⟩, ⟨1,1,1⟩, ⟨1,-1,1⟩, ⟨1,0,-1⟩, ⟨1,1,-1⟩,
         ⟨1,-1,-1⟩, ⟨0,-1,0⟩, ⟨0,0,0⟩, ⟨1,-1,0⟩, ⟨1,0,0⟩, ⟨-1,-1,0⟩, ⟨-1,0,0⟩, ⟨0,-1,-1⟩,
         ⟨0,0,-1⟩, ⟨1,-1,-1⟩, ⟨1,0,-1⟩, ⟨-1,-1,-1⟩, ⟨-1,0,-1⟩, ⟨0,-1,1⟩, ⟨0,0,1⟩, ⟨1,-1,1⟩,
         ⟨1,0,1⟩, ⟨-1,-1,1⟩, ⟨-1,0,1⟩] : List Point3).map fun a => ptAdd a ⟨2,0,-3⟩).toFinset := by
  decide

/-- C8 counterexample: with a negative radius neither function fails fast;
`cube_diff` returns the empty list and `cube_shell` returns a 98-element
list, both silently. -/
theorem negative_radius_no_failure :
    cube_diff ⟨0,0,0⟩ ⟨5,0,0⟩ (-1) = [] ∧ (cube_shell ⟨0,0,0⟩ (-1)).length = 98 := by
  decide

/-- C8 amended: calling `cube_shell` or `cube_diff` with a negative radius
does not fail fast: there is no assertion, and both return normally —
`cube_diff` returns the empty list and `cube_shell` a nonempty list. -/
theorem negative_radius_amended (f t c : Point3) (r : Int) (h : r < 0) :
    cube_diff f t r = [] ∧ cube_shell c r ≠ [] := by
  constructor
  · rw [List.eq_nil_iff_forall_not_mem]
    intro p hp
    rw [mem_cube_diff] at hp
    have h1 := hp.1
    simp only [chebyshevDist] at h1
    omega
  · intro heq
    have hmem : (⟨c.x + -r, c.y + -(r.natAbs : Int), c.z + -(r.natAbs : Int)⟩ : Point3) ∈
        cube_shell c r := by
      rw [cube_shell, if_neg (by omega)]
      refine List.mem_append.2 (Or.inl (List.mem_append.2 (Or.inl ?_)))
      rw [mem_addSquareShell]
      refine ⟨?_, ?_, ?_⟩ <;> simp only [mem_pair, mem_range_abs] <;> omega
    rw [heq] at hmem
    exact List.not_mem_nil _ hmem

/-- Witness for the C8 amended theorem at radius -1. -/
theorem negative_radius_amended_witness :
    (-1 : Int) < 0 ∧
      (cube_diff ⟨0,0,0⟩ ⟨5,0,0⟩ (-1) = [] ∧ cube_shell ⟨0,0,0⟩ (-1) ≠ []) :=
  ⟨by decide, negative_radius_amended ⟨0,0,0⟩ ⟨5,0,0⟩ ⟨0,0,0⟩ (-1) (by decide)⟩

/-- C9: `cube_shell` is translation-equivariant: shifting the center by `t`
translates every emitted cell by `t`, in the same order. -/
theorem cube_shell_translate (c t : Point3) (r : Int) :
    cube_shell (ptAdd c t) r = (cube_shell c r).map fun p => ptAdd p t := by
  by_cases hr : r = 0
  · subst hr
    simp [cube_shell]
  · rw [cube_shell, cube_shell, if_neg hr, if_neg hr]
    simp only [List.map_append]
    rw [addSquareShell_translate, addSquareShell_translate, addSquareShell_translate]

/-- `LoadReason` from `gaia_update`: why a terrain block load was requested. -/
inductive LoadReason where
  | Local (owner : Nat)
  | ForClient
deriving DecidableEq, Repr

/-- An entry of `terrain.all_blocks`: its `lods` vector holds the per-LOD
generated content (`Some` when generated). The entry type's defining file is
not among the sources; its shape is taken from its use in
`server_update.rs` (`block.lods.get(lod.0 as usize)` yielding
`Option<&Option<TerrainBlock>>`). `TerrainBlock` content is opaque,
modelled as `Nat`. -/
structure MipMesh where
  lods : List (Option Nat)
deriving DecidableEq, Repr

/-- `ServerToGaia::Load`: the only `ServerToGaia` message the embedded
handlers emit. -/
inductive ServerToGaia where
  | Load (position : Point3) (lod : Nat) (reason : LoadReason)
deriving DecidableEq, Repr

/-- `ServerToClient::AddBlock`: the only `ServerToClient` message the
embedded handlers emit. -/
inductive ServerToClient where
  | AddBlock (position : Point3) (block : Nat) (lod : Nat)
deriving DecidableEq, Repr

/-- The part of the `Server` state the RequestBlock and Loaded handlers
read: the terrain store (`terrain.all_blocks`) and whether a client channel
(`server.to_client`) is connected. -/
structure ServerModel where
  all_blocks : Point3 → Option MipMesh
  to_client : Bool

/-- The `ClientToServer::RequestBlock(position, lod)` branch of
`apply_client_to_server`: if the block's content is resident at `lod`, send
it to the connected client (if any); otherwise forward a
`ServerToGaia::Load` with reason `ForClient`. Returns the emitted
(gaia, client) messages; the branch does not modify the server state. -/
def requestBlock (server : ServerModel) (position : Point3) (lod : Nat) :
    List ServerToGaia × List ServerToClient :=
  match server.all_blocks position with
  | none => ([ServerToGaia.Load position lod LoadReason.ForClient], [])
  | some block =>
    match block.lods[lod]? with
    | some (some b) =>
      ([], if server.to_client then [ServerToClient.AddBlock position b lod] else [])
    | _ => ([ServerToGaia.Load position lod LoadReason.ForClient], [])

/-- Whether the terrain store holds generated content for `(p, lod)`,
mirroring the handler's own test. -/
def lodPresent (server : ServerModel) (p : Point3) (lod : Nat) : Bool :=
  match server.all_blocks p with
  | none => false
  | some block =>
    match block.lods[lod]? with
    | some (some _) => true
    | _ => false

/-- Processing a list of RequestBlock messages in order. The branch does not
modify the server state, so each request is handled against the same store
and the gaia messages concatenate. -/
def processRequestBlocks (server : ServerModel) (reqs : List (Point3 × Nat)) :
    List ServerToGaia :=
  reqs.flatMap fun r => (requestBlock server r.1 r.2).1

/-- The `LoadReason::ForClient` arm of `apply_gaia_to_server`'s `Loaded`
handler. The source unwraps the block (`all_blocks.get(..).unwrap()`), the
lod slot (`lods[i].as_ref().unwrap()`, with the indexing itself able to
panic) and the client channel (`to_client.as_mut().unwrap()`); `none`
models those panics. (The `Local` arm calls `terrain_game_loader.load`,
which is not among the sources and is not modelled.) -/
def gaiaLoadedForClient (server : ServerModel) (position : Point3) (lod_index : Nat) :
    Option (List ServerToClient) :=
  match server.all_blocks position with
  | none => none
  | some block =>
    match block.lods[lod_index]? with
    | some (some b) =>
      if server.to_client then some [ServerToClient.AddBlock position b lod_index] else none
    | _ => none

/-- When the content is not resident, RequestBlock always forwards one
`Load(position, lod, ForClient)` to gaia and sends nothing to the client:
there is no pending-load table consulted or updated. -/
theorem requestBlock_absent (server : ServerModel) (p : Point3) (lod : Nat)
    (h : lodPresent server p lod = false) :
    requestBlock server p lod = ([ServerToGaia.Load p lod LoadReason.ForClient], []) := by
  unfold lodPresent at h
  unfold requestBlock
  cases hb : server.all_blocks p with
  | none => rfl
  | some block =>
    rw [hb] at h
    dsimp only at h ⊢
    cases hl : block.lods[lod]? with
    | none => rfl
    | some o =>
      rw [hl] at h
      cases o with
      | none => rfl
      | some b => simp at h

/-- C3 counterexample: with the block absent from the store, two
RequestBlock messages for the same (cell, lod) issued before any completion
each dispatch their own `Load` to the generation collaborator — two
dispatches, not one merged request. -/
theorem double_request_double_dispatch :
    processRequestBlocks { all_blocks := fun _ => none, to_client := true }
        [(⟨0,0,0⟩, 0), (⟨0,0,0⟩, 0)] =
      [ServerToGaia.Load ⟨0,0,0⟩ 0 LoadReason.ForClient,
       ServerToGaia.Load ⟨0,0,0⟩ 0 LoadReason.ForClient] := rfl

/-- C3 amended: two requests for the same (cell, lod) issued before any
completion arrives result in two separate dispatches to the generation
collaborator, one per request, both with reason ForClient; no pending-load
merging exists in the server update path. -/
theorem double_request_amended (server : ServerModel) (p : Point3) (lod : Nat)
    (h : lodPresent server p lod = false) :
    processRequestBlocks server [(p, lod), (p, lod)] =
      [ServerToGaia.Load p lod LoadReason.ForClient,
       ServerToGaia.Load p lod LoadReason.ForClient] := by
  simp [processRequestBlocks, requestBlock_absent server p lod h]

/-- Witness for the C3 amended theorem on an empty terrain store. -/
theorem double_request_amended_witness :
    lodPresent { all_blocks := fun _ => none, to_client := true } ⟨0,0,0⟩ 0 = false ∧
      processRequestBlocks { all_blocks := fun _ => none, to_client := true }
          [(⟨0,0,0⟩, 0), (⟨0,0,0⟩, 0)] =
        [ServerToGaia.Load ⟨0,0,0⟩ 0 LoadReason.ForClient,
         ServerToGaia.Load ⟨0,0,0⟩ 0 LoadReason.ForClient] :=
  ⟨rfl, double_request_amended { all_blocks := fun _ => none, to_client := true } ⟨0,0,0⟩ 0 rfl⟩

/-- C4: when the requested block is already resident at the requested lod
and a client is connected, RequestBlock sends nothing to the generation
collaborator and immediately delivers the resident content to the client as
an `AddBlock` message. -/
theorem requestBlock_present (server : ServerModel) (position : Point3) (lod : Nat)
    (block : MipMesh) (b : Nat)
    (hb : server.all_blocks position = some block)
    (hl : block.lods[lod]? = some (some b))
    (hc : server.to_client = true) :
    requestBlock server position lod = ([], [ServerToClient.AddBlock position b lod]) := by
  unfold requestBlock
  rw [hb]
  dsimp only
  rw [hl]
  dsimp only
  rw [hc]
  rfl

/-- A one-block server store used to witness the C4 and C5 theorems. -/
def demoServer : ServerModel :=
  { all_blocks := fun p => if p = ⟨0,0,0⟩ then some ⟨[some 7]⟩ else none,
    to_client := true }

/-- Witness for C4 on a store holding block 7 at position (0,0,0), lod 0. -/
theorem requestBlock_present_witness :
    demoServer.all_blocks ⟨0,0,0⟩ = some ⟨[some 7]⟩ ∧
      (⟨[some 7]⟩ : MipMesh).lods[0]? = some (some 7) ∧
      demoServer.to_client = true ∧
      requestBlock demoServer ⟨0,0,0⟩ 0 = ([], [ServerToClient.AddBlock ⟨0,0,0⟩ 7 0]) :=
  ⟨rfl, rfl, rfl, requestBlock_present demoServer ⟨0,0,0⟩ 0 ⟨[some 7]⟩ 7 rfl rfl rfl⟩

/-- C5 counterexample: a ForClient completion for a position absent from the
terrain store makes the handler panic on `unwrap` (modelled as `none`); the
completion is not dropped silently and processing is fatal. -/
theorem gaiaLoadedForClient_panics :
    gaiaLoadedForClient { all_blocks := fun _ => none, to_client := true } ⟨0,0,0⟩ 0 =
      none := rfl

/-- C5 amended: when the target of a ForClient completion is unknown — the
block or its lod content absent from the store, or no client connected —
the handler fails fast (an `unwrap` panic, modelled as `none`) instead of
dropping the completion silently. -/
theorem gaiaLoadedForClient_fatal (server : ServerModel) (p : Point3) (lod : Nat)
    (h : lodPresent server p lod = false ∨ server.to_client = false) :
    gaiaLoadedForClient server p lod = none := by
  unfold lodPresent at h
  unfold gaiaLoadedForClient
  cases hb : server.all_blocks p with
  | none => rfl
  | some block =>
    rw [hb] at h
    dsimp only at h ⊢
    cases hl : block.lods[lod]? with
    | none => rfl
    | some o =>
      rw [hl] at h
      cases o with
      | none => rfl
      | some b =>
        rcases h with h | h
        · simp at h
        · rw [h]
          rfl

/-- Witness for the C5 amended theorem: no client channel is connected. -/
theorem gaiaLoadedForClient_fatal_witness :
    (lodPresent { all_blocks := fun _ => none, to_client := true } ⟨1,2,3⟩ 0 = false ∨
      ({ all_blocks := fun _ => none, to_client := true } : ServerModel).to_client = false) ∧
      gaiaLoadedForClient { all_blocks := fun _ => none, to_client := true } ⟨1,2,3⟩ 0 = none :=
  ⟨Or.inl rfl,
   gaiaLoadedForClient_fatal { all_blocks := fun _ => none, to_client := true } ⟨1,2,3⟩ 0
     (Or.inl rfl)⟩

/-- The index bookkeeping of `TerrainVRAMBuffers` from
`src/terrain_vram_buffers.rs`: `id_to_index` (a `HashMap<EntityId, usize>`,
modelled as a function to `Option`), `index_to_id` (a `Vec<EntityId>`,
`EntityId` modelled as `Nat`) and `length` (the buffered vertex count). The
GL buffer contents themselves are external GL state and are not modelled. -/
structure TerrainVRAMBuffers where
  id_to_index : Nat → Option Nat
  index_to_id : List Nat
  length : Nat

/-- One iteration of the loop in `TerrainVRAMBuffers::push`:
`id_to_index.insert(id, index_to_id.len()); index_to_id.push(id)`. -/
def TerrainVRAMBuffers.pushStep (t : TerrainVRAMBuffers) (id : Nat) : TerrainVRAMBuffers :=
  { t with
    id_to_index := fun k => if k = id then some t.index_to_id.length else t.id_to_index k,
    index_to_id := t.index_to_id ++ [id] }

/-- `TerrainVRAMBuffers::push`: `r` stands for the success of the GL-side
`vertex_positions.buffer.push` (VRAM budget, external state); on failure
the method returns `false` before touching any bookkeeping. On success each
id is inserted at the then-current end of `index_to_id`, and `length` grows
by `3 * ids.len()`. (The slice-length assertions and the GL buffer writes
concern data not modelled here.) -/
def TerrainVRAMBuffers.push (t : TerrainVRAMBuffers) (r : Bool) (ids : List Nat) :
    TerrainVRAMBuffers × Bool :=
  if r = false then (t, false)
  else
    let t2 := ids.foldl TerrainVRAMBuffers.pushStep t
    ({ t2 with length := t2.length + 3 * ids.length }, true)

/-- `TerrainVRAMBuffers::swap_remove`: looks up `id`'s index, reads the last
element, swap-removes the vector entry, removes `id` from the map and, when
the moved element differs from `id`, redirects it to the vacated index;
`length` shrinks by 3. `none` models the panics (`unwrap` on an absent id,
and the vector indexing when the index is out of bounds). -/
def TerrainVRAMBuffers.swap_remove (t : TerrainVRAMBuffers) (id : Nat) :
    Option TerrainVRAMBuffers :=
  match t.id_to_index id with
  | none => none
  | some idx =>
    if idx < t.index_to_id.length then
      some
        { id_to_index :=
            if id ≠ t.index_to_id.getD (t.index_to_id.length - 1) 0 then
              fun k =>
                if k = t.index_to_id.getD (t.index_to_id.length - 1) 0 then some idx
                else if k = id then none else t.id_to_index k
            else fun k => if k = id then none else t.id_to_index k,
          index_to_id :=
            (t.index_to_id.set idx (t.index_to_id.getD (t.index_to_id.length - 1) 0)).dropLast,
          length := t.length - 3 }
    else none

/-- The two bookkeeping maps are mutually inverse: every vector slot's id is
mapped back to that slot, and every mapped id names a slot holding it. -/
def MapsInv (t : TerrainVRAMBuffers) : Prop :=
  (∀ i id, t.index_to_id[i]? = some id → t.id_to_index id = some i) ∧
  (∀ id i, t.id_to_index id = some i → t.index_to_id[i]? = some id)

/-- The C10 invariant: `length` is three times the entry count of
`index_to_id`, and the two maps are mutually inverse. -/
def BuffersInv (t : TerrainVRAMBuffers) : Prop :=
  t.length = 3 * t.index_to_id.length ∧ MapsInv t

/-- The states reachable from a fresh `TerrainVRAMBuffers::new` by `push`
calls whose ids are distinct and not already present, and `swap_remove`
calls whose id is present (so the call returns rather than panicking). -/
inductive Reachable : TerrainVRAMBuffers → Prop where
  | init : Reachable { id_to_index := fun _ => none, index_to_id := [], length := 0 }
  | push {t : TerrainVRAMBuffers} {r : Bool} {ids : List Nat} :
      Reachable t → ids.Nodup → (∀ id ∈ ids, t.id_to_index id = none) →
      Reachable (t.push r ids).1
  | swap_remove {t t2 : TerrainVRAMBuffers} {id : Nat} :
      Reachable t → t.swap_remove id = some t2 → Reachable t2

theorem pushStep_mapsInv {t : TerrainVRAMBuffers} {id : Nat}
    (hinv : MapsInv t) (hfresh : t.id_to_index id = none) :
    MapsInv (t.pushStep id) := by
  obtain ⟨hfwd, hbwd⟩ := hinv
  constructor
  · intro i id2 h
    simp only [TerrainVRAMBuffers.pushStep] at h ⊢
    rw [List.getElem?_append] at h
    split at h
    · have hmap := hfwd i id2 h
      have hne : id2 ≠ id := by
        intro e
        rw [e, hfresh] at hmap
        exact Option.noConfusion hmap
      simp [hne, hmap]
    · next hge =>
      have hi : i = t.index_to_id.length := by
        rcases List.getElem?_eq_some_iff.1 h with ⟨hb, _⟩
        simp at hb
        omega
      subst hi
      simp only [Nat.sub_self] at h
      have hid2 : id = id2 := by simpa using h
      subst hid2
      simp
  · intro id2 i h
    simp only [TerrainVRAMBuffers.pushStep] at h ⊢
    by_cases hcase : id2 = id
    · subst hcase
      simp only [if_pos rfl] at h
      have hi : i = t.index_to_id.length := by
        injection h with h
        omega
      subst hi
      exact List.getElem?_concat_length _ _
    · rw [if_neg hcase] at h
      have := hbwd id2 i h
      rcases List.getElem?_eq_some_iff.1 this with ⟨hb, _⟩
      rw [List.getElem?_append_left hb]
      exact this

theorem pushFold_mapsInv (ids : List Nat) :
    ∀ t : TerrainVRAMBuffers, MapsInv t → ids.Nodup →
      (∀ id ∈ ids, t.id_to_index id = none) →
      MapsInv (ids.foldl TerrainVRAMBuffers.pushStep t) := by
  induction ids with
  | nil => intro t h _ _; exact h
  | cons id ids ih =>
    intro t h hnd hfresh
    rw [List.foldl_cons]
    refine ih _ (pushStep_mapsInv h (hfresh id (by simp))) (List.nodup_cons.1 hnd).2 ?_
    intro id2 hid2
    have hne : id2 ≠ id := by
      rintro rfl
      exact (List.nodup_cons.1 hnd).1 hid2
    simp only [TerrainVRAMBuffers.pushStep]
    simp [hne, hfresh id2 (by simp [hid2])]

theorem pushFold_index_length (ids : List Nat) :
    ∀ t : TerrainVRAMBuffers,
      (ids.foldl TerrainVRAMBuffers.pushStep t).index_to_id.length =
        t.index_to_id.length + ids.length := by
  induction ids with
  | nil => intro t; rfl
  | cons id ids ih =>
    intro t
    rw [List.foldl_cons, ih]
    simp [TerrainVRAMBuffers.pushStep]
    omega

theorem pushFold_length_field (ids : List Nat) :
    ∀ t : TerrainVRAMBuffers,
      (ids.foldl TerrainVRAMBuffers.pushStep t).length = t.length := by
  induction ids with
  | nil => intro t; rfl
  | cons id ids ih =>
    intro t
    rw [List.foldl_cons, ih]
    rfl

theorem push_buffersInv {t : TerrainVRAMBuffers} {r : Bool} {ids : List Nat}
    (hinv : BuffersInv t) (hnd : ids.Nodup)
    (hfresh : ∀ id ∈ ids, t.id_to_index id = none) :
    BuffersInv (t.push r ids).1 := by
  unfold TerrainVRAMBuffers.push
  cases r with
  | false => exact hinv
  | true =>
    simp only [Bool.true_eq_false, if_false]
    constructor
    · show (ids.foldl TerrainVRAMBuffers.pushStep t).length + 3 * ids.length = _
      rw [pushFold_length_field, pushFold_index_length, hinv.1]
      ring
    · exact pushFold_mapsInv ids t hinv.2 hnd hfresh

theorem swap_remove_buffersInv {t t2 : TerrainVRAMBuffers} {id : Nat}
    (hinv : BuffersInv t) (heq : t.swap_remove id = some t2) : BuffersInv t2 := by
  obtain ⟨hlen, hfwd, hbwd⟩ := hinv
  unfold TerrainVRAMBuffers.swap_remove at heq
  cases hid : t.id_to_index id with
  | none =>
    rw [hid] at heq
    exact Option.noConfusion heq
  | some idx =>
    rw [hid] at heq
    dsimp only at heq
    split at heq
    case isFalse => exact Option.noConfusion heq
    case isTrue hlt =>
    have h2 := Option.some.inj heq
    clear heq
    set sw := t.index_to_id.getD (t.index_to_id.length - 1) 0 with hswdef
    have hmap : t2.id_to_index = if id ≠ sw then
        (fun k => if k = sw then some idx else if k = id then none else t.id_to_index k)
      else (fun k => if k = id then none else t.id_to_index k) := by
      rw [← h2]
    have hvec : t2.index_to_id = (t.index_to_id.set idx sw).dropLast := by
      rw [← h2]
    have hlen2 : t2.length = t.length - 3 := by
      rw [← h2]
    have hn1 : t.index_to_id.length - 1 < t.index_to_id.length := by omega
    have hswq : t.index_to_id[t.index_to_id.length - 1]? = some sw := by
      rw [hswdef, List.getD_eq_getElem?_getD, List.getElem?_eq_getElem hn1]
      rfl
    have mapInj : ∀ (i j k : Nat), t.index_to_id[i]? = some k →
        t.index_to_id[j]? = some k → i = j := by
      intro i j k ha hb
      have e1 := hfwd i k ha
      have e2 := hfwd j k hb
      rw [e1] at e2
      exact Option.some.inj e2
    have hgid : t.index_to_id[idx]? = some id := hbwd id idx hid
    have hgetnew : ∀ i : Nat,
        ((t.index_to_id.set idx sw).dropLast)[i]? =
          if i < t.index_to_id.length - 1 then
            (if idx = i then some sw else t.index_to_id[i]?)
          else none := by
      intro i
      rw [List.getElem?_dropLast]
      simp only [List.length_set]
      by_cases h1 : i < t.index_to_id.length - 1
      · rw [if_pos h1, if_pos h1, List.getElem?_set]
        simp [hlt]
      · rw [if_neg h1, if_neg h1]
    refine ⟨?_, ?_, ?_⟩
    · rw [hlen2, hvec]
      simp only [List.length_dropLast, List.length_set]
      omega
    · -- forward: every slot of the new vector maps back to its index
      intro i k h
      rw [hvec, hgetnew i] at h
      split at h
      case isFalse => exact Option.noConfusion h
      case isTrue hi =>
      by_cases hii : idx = i
      · -- the slot that received the swapped id
        rw [if_pos hii] at h
        have hk : sw = k := Option.some.inj h
        by_cases hc : id = k
        · -- id was the last element, so idx = length - 1, contradicting i < length - 1
          have hswq2 : t.index_to_id[t.index_to_id.length - 1]? = some id := by
            rw [hswq, hk, hc]
          have hidx : idx = t.index_to_id.length - 1 :=
            mapInj idx (t.index_to_id.length - 1) id hgid hswq2
          omega
        · have hne : id ≠ sw := fun e => hc (e.trans hk)
          rw [hmap, if_pos hne]
          simp only [if_pos hk.symm]
          exact congrArg some hii
      · rw [if_neg hii] at h
        have hkc : t.id_to_index k = some i := hfwd i k h
        have hkne2 : k ≠ sw := by
          intro e
          have := mapInj i (t.index_to_id.length - 1) k h (e ▸ hswq)
          omega
        have hkne1 : k ≠ id := by
          intro e
          have := mapInj i idx k h (e ▸ hgid)
          exact hii this.symm
        by_cases hc : id = sw
        · simp only [hmap, if_neg (not_not_intro hc), if_neg hkne1]
          exact hkc
        · simp only [hmap, if_pos hc, if_neg hkne2, if_neg hkne1]
          exact hkc
    · -- backward: every mapped id names a slot of the new vector holding it
      intro k i h
      rw [hmap] at h
      rw [hvec, hgetnew i]
      by_cases hc : id = sw
      · simp only [if_neg (not_not_intro hc)] at h
        by_cases hk : k = id
        · simp only [if_pos hk] at h
          exact Option.noConfusion h
        · simp only [if_neg hk] at h
          have hbk := hbwd k i h
          have hib : i < t.index_to_id.length := (List.getElem?_eq_some_iff.1 hbk).1
          have hine : i ≠ t.index_to_id.length - 1 := by
            intro e
            have hks : k = sw := Option.some.inj ((e ▸ hbk).symm.trans hswq)
            exact hk (hks.trans hc.symm)
          have hidx : idx = t.index_to_id.length - 1 :=
            mapInj idx (t.index_to_id.length - 1) id hgid (hc ▸ hswq)
          rw [if_pos (by omega), if_neg (by omega)]
          exact hbk
      · simp only [if_pos hc] at h
        by_cases hk : k = sw
        · simp only [if_pos hk] at h
          have hi : i = idx := (Option.some.inj h).symm
          have hidxne : idx ≠ t.index_to_id.length - 1 := by
            intro e
            exact hc (Option.some.inj ((e ▸ hgid).symm.trans hswq))
          rw [if_pos (by omega), if_pos hi.symm, hk]
        · simp only [if_neg hk] at h
          by_cases hk2 : k = id
          · simp only [if_pos hk2] at h
            exact Option.noConfusion h
          · simp only [if_neg hk2] at h
            have hbk := hbwd k i h
            have hib : i < t.index_to_id.length := (List.getElem?_eq_some_iff.1 hbk).1
            have hine : i ≠ t.index_to_id.length - 1 := by
              intro e
              exact hk (Option.some.inj ((e ▸ hbk).symm.trans hswq))
            have hine2 : idx ≠ i := by
              intro e
              exact hk2 (Option.some.inj ((e ▸ hgid).symm.trans hbk)).symm
            rw [if_pos (by omega), if_neg hine2]
            exact hbk

/-- C10: every `TerrainVRAMBuffers` state reachable by `push` calls (whose
ids are distinct and not already present) and `swap_remove` calls (whose id
is present) satisfies the invariant: `length` equals 3 times the number of
entries of `index_to_id`, and `id_to_index` maps each stored id to its
position in `index_to_id` — the two maps are mutually inverse. -/
theorem terrain_vram_buffers_invariant {t : TerrainVRAMBuffers} (h : Reachable t) :
    BuffersInv t := by
  induction h with
  | init =>
    refine ⟨rfl, ?_, ?_⟩ <;> intro a b hab <;> simp at hab
  | push _ hnd hfresh ih => exact push_buffersInv ih hnd hfresh
  | swap_remove _ heq ih => exact swap_remove_buffersInv ih heq

/-- Witness for C10: the state after pushing ids 4 and 7 into a fresh
buffer set is reachable and satisfies the length invariant. -/
theorem terrain_vram_buffers_invariant_witness :
    Reachable (TerrainVRAMBuffers.push
      { id_to_index := fun _ => none, index_to_id := [], length := 0 } true [4, 7]).1 ∧
      (TerrainVRAMBuffers.push
        { id_to_index := fun _ => none, index_to_id := [], length := 0 } true [4, 7]).1.length =
        3 * (TerrainVRAMBuffers.push
          { id_to_index := fun _ => none, index_to_id := [], length := 0 }
            true [4, 7]).1.index_to_id.length := by
  have hr : Reachable (TerrainVRAMBuffers.push
      { id_to_index := fun _ => none, index_to_id := [], length := 0 } true [4, 7]).1 :=
    Reachable.push Reachable.init (by decide) (fun id hid => rfl)
  exact ⟨hr, (terrain_vram_buffers_invariant hr).1⟩
